import Mathlib

/-!
Verification of the BPE trainer in `bpe.py`.

The Python data structures are embedded as follows:
* `dict` values (the token map, and `Counter` for pair frequencies) become
  insertion-ordered association lists, which is exactly the observable
  behaviour of CPython dicts: lookup by key, update keeps position,
  new keys are appended at the end, iteration follows that order.
* `Counter[Pair]` holds `Int` counts (they can go negative via `-= 1`);
  a missing key reads as `0` and writing to a missing key appends it.
* Python functions that can raise return `Option`/sum-like results:
  `most_used` on an empty counter raises `IndexError` (modelled by `none`),
  a missing token-map key in `_expand_token` raises `KeyError`
  (modelled by `ExpandResult.keyError`).
* The unbounded `while` loop of `_expand_token` is run on explicit fuel;
  termination claims are phrased as the existence of sufficient fuel.
-/



/-- `Pair` from `bpe.py`: an ordered pair of symbol ids. -/
structure Pair where
  left : Nat
  right : Nat
deriving DecidableEq

/-- One value of the Python `TokenMap = dict[Nat, Pair | Nat]`:
a base symbol maps to its own code point (`leaf`), a synthesized symbol
maps to the `Pair` it was merged from. -/
inductive TMEntry where
  | leaf (c : Nat)
  | pair (p : Pair)
deriving DecidableEq

/-- The Python `TokenMap` dict as an insertion-ordered association list. -/
abbrev TokenMap := List (Nat × TMEntry)

/-- The Python `Counter[Pair]` as an insertion-ordered association list. -/
abbrev Freqs := List (Pair × Int)

/-- Dict lookup `map[t]`: first entry with the given key, `none` = `KeyError`. -/
def lookupTM : TokenMap → Nat → Option TMEntry
  | [], _ => none
  | (k, e) :: rest, t => if k = t then some e else lookupTM rest t

/-- The search loop of `create_or_get_pair`: first token whose map entry
equals the given `Pair` (base entries are ints and never compare equal). -/
def findPairId : TokenMap → Pair → Option Nat
  | [], _ => none
  | (k, e) :: rest, p => if e = TMEntry.pair p then some k else findPairId rest p

/-- `create_or_get_pair` from `bpe.py`: reuse an existing id for `pair`,
otherwise allocate `next_id = len(map)` and register it. -/
def create_or_get_pair (m : TokenMap) (p : Pair) : Nat × TokenMap :=
  match findPairId m p with
  | some k => (k, m)
  | none => (m.length, m ++ [(m.length, TMEntry.pair p)])

/-- Counter read `c[p]`: `Counter.__missing__` yields 0 for an absent key. -/
def getCount : Freqs → Pair → Int
  | [], _ => 0
  | (q, c) :: rest, p => if q = p then c else getCount rest p

/-- `c[p] += d` / `c[p] -= d` on a Counter: update in place when the key is
present (keeping its position), otherwise append `(p, 0 + d)` at the end. -/
def setAdd : Freqs → Pair → Int → Freqs
  | [], p, d => [(p, d)]
  | (q, c) :: rest, p, d =>
    if q = p then (q, c + d) :: rest else (q, c) :: setAdd rest p d

/-- `State` from `bpe.py`. -/
structure State where
  tokens : List Nat
  frequencies : Freqs
  token_map : TokenMap
deriving DecidableEq

/-- Result of the `_expand_token` stack loop: normal result, `KeyError`
on a missing token-map entry, or the given fuel ran out. -/
inductive ExpandResult where
  | ok (chars : List Nat)
  | keyError (t : Nat)
  | outOfFuel
deriving DecidableEq

/-- The `while to_process:` loop of `State._expand_token`.  The Python code
pops from the end of the list and pushes `right` then `left`; here the stack
head is the next popped element, so a pair pushes `left` in front of `right`.
Leaf entries append `chr(mapping)` to the output. -/
def expand_loop (m : TokenMap) : Nat → List Nat → List Nat → ExpandResult
  | _, [], acc => .ok acc
  | 0, _ :: _, _ => .outOfFuel
  | fuel + 1, t :: stack, acc =>
    match lookupTM m t with
    | none => .keyError t
    | some (.pair p) => expand_loop m fuel (p.left :: p.right :: stack) acc
    | some (.leaf c) => expand_loop m fuel stack (acc ++ [c])

/-- `State._expand_token` on one token (characters as code points). -/
def expand_token (m : TokenMap) (fuel : Nat) (t : Nat) : ExpandResult :=
  expand_loop m fuel [t] []

/-- The loop of `State.to_text`: expand every token, extending the output. -/
def to_text_loop (m : TokenMap) (fuel : Nat) : List Nat → List Nat → ExpandResult
  | [], acc => .ok acc
  | t :: ts, acc =>
    match expand_token m fuel t with
    | .ok cs => to_text_loop m fuel ts (acc ++ cs)
    | e => e

/-- `State.to_text` (text as the list of its character code points). -/
def to_text (fuel : Nat) (s : State) : ExpandResult :=
  to_text_loop s.token_map fuel s.tokens []

/-- `itertools.pairwise` over the character codes of a text. -/
def pairwiseList : List Nat → List Pair
  | [] => []
  | [_] => []
  | a :: b :: rest => Pair.mk a b :: pairwiseList (b :: rest)

/-- `Counter(iterable)`: count occurrences; keys appear in first-seen order. -/
def counterOf (ps : List Pair) : Freqs :=
  ps.foldl (fun f p => setAdd f p 1) []

/-- `{i: i for i in range(256)}`: the pre-registered base alphabet. -/
def base_map : TokenMap :=
  (List.range 256).map (fun i => (i, TMEntry.leaf i))

/-- `from_text` from `bpe.py`. -/
def from_text (text : List Nat) : State :=
  { tokens := text
    frequencies := counterOf (pairwiseList text)
    token_map := base_map }

/-- `account_for_substitution` from `bpe.py`.  Note the faithful modelling of
the Python conditions `if left_token:` and `if right_token:`, which are false
both for `None` and for the token id `0`. -/
def account_for_substitution (f : Freqs) (left_token : Option Nat)
    (the_pair : Pair) (right_token : Option Nat) (new_token : Nat) : Freqs :=
  let f1 := match left_token with
    | some l =>
      if l ≠ 0 then
        setAdd (setAdd f (Pair.mk l the_pair.left) (-1)) (Pair.mk l new_token) 1
      else f
    | none => f
  let f2 := match right_token with
    | some r =>
      if r ≠ 0 then
        setAdd (setAdd f1 (Pair.mk the_pair.right r) (-1)) (Pair.mk new_token r) 1
      else f1
    | none => f1
  setAdd f2 the_pair (-1)

/-- `max(items, key=itemgetter(1))`: keep the first element whose count is
maximal (later elements replace the best only on a strictly larger count). -/
def most_usedAux : List (Pair × Int) → (Pair × Int) → (Pair × Int)
  | [], best => best
  | kv :: rest, best => most_usedAux rest (if kv.2 > best.2 then kv else best)

/-- `most_used` from `bpe.py`: `frequencies.most_common(1)[0]`; on an empty
counter `most_common(1)` is `[]` and indexing raises `IndexError` (`none`). -/
def most_used (f : Freqs) : Option (Pair × Int) :=
  match f with
  | [] => none
  | kv :: rest => some (most_usedAux rest kv)

/-- The `while old_idx < len(state.tokens):` rewrite pass of `step`.
`rest` is the unread suffix of the old sequence, `acc` the `new_tokens`
built so far; the left neighbour is `new_tokens[-1]`, the right neighbour
`state.tokens[old_idx + 2]`. -/
def merge_scan (ptr : Pair) :
    List Nat → List Nat → Freqs → TokenMap → List Nat × Freqs × TokenMap
  | [], acc, f, m => (acc, f, m)
  | [t], acc, f, m => (acc ++ [t], f, m)
  | t0 :: t1 :: rest, acc, f, m =>
    if Pair.mk t0 t1 = ptr then
      let r := create_or_get_pair m (Pair.mk t0 t1)
      merge_scan ptr rest (acc ++ [r.1])
        (account_for_substitution f acc.getLast? (Pair.mk t0 t1) rest.head? r.1) r.2
    else
      merge_scan ptr (t1 :: rest) (acc ++ [t0]) f m

/-- `step` from `bpe.py`.  `none` models the `IndexError` raised by
`most_used` on an empty frequency table. -/
def step (s : State) : Option State :=
  match most_used s.frequencies with
  | none => none
  | some pc =>
    if pc.2 = 1 then some s
    else
      let r := merge_scan pc.1 s.tokens [] s.frequencies s.token_map
      some { tokens := r.1, frequencies := r.2.1, token_map := r.2.2 }

/-- `n` repeated applications of `step`, propagating a raised exception. -/
def stepN : Nat → State → Option State
  | 0, s => some s
  | n + 1, s =>
    match step s with
    | none => none
    | some s' => stepN n s'

/-- The `while most_used(state.frequencies)[1] > 1:` condition of `main`;
`none` models the `IndexError` on an empty table. -/
def loopCond (s : State) : Option Bool :=
  (most_used s.frequencies).map (fun pc => decide (1 < pc.2))

/-- Result of running `main`'s training loop for a bounded number of
iterations: it finished (`done`), raised (`err`), or was still running
when the iteration budget ran out (`fuelOut`). -/
inductive LoopResult where
  | done (s : State)
  | err
  | fuelOut (s : State)
deriving DecidableEq

/-- `main`'s training loop with an iteration budget. -/
def trainLoop : State → Nat → LoopResult
  | s, fuel =>
    match loopCond s with
    | none => .err
    | some false => .done s
    | some true =>
      match fuel with
      | 0 => .fuelOut s
      | f + 1 =>
        match step s with
        | none => .err
        | some s' => trainLoop s' f

/-- Number of (non-overlapping, left-to-right) merge occurrences the rewrite
pass performs for the chosen pair: mirrors the cursor motion of `step`. -/
def countPairOcc (ptr : Pair) : List Nat → Nat
  | [] => 0
  | [_] => 0
  | t0 :: t1 :: rest =>
    if Pair.mk t0 t1 = ptr then 1 + countPairOcc ptr rest
    else countPairOcc ptr (t1 :: rest)

/-! ### Invariants of the token map -/

/-- The keys of the token map are, in insertion order, exactly `0..len-1`:
`from_text` seeds the keys `0..255` and `create_or_get_pair` always inserts
at key `len(map)`. -/
def keysCanonical (m : TokenMap) : Prop :=
  m.map Prod.fst = List.range m.length

/-- Every synthesized id is strictly greater than the ids of its pair. -/
def decreasingMap (m : TokenMap) : Prop :=
  ∀ k p, (k, TMEntry.pair p) ∈ m → p.left < k ∧ p.right < k

/-- No two distinct ids map to the same `Pair`. -/
def pairInjective (m : TokenMap) : Prop :=
  ∀ k1 k2 p, (k1, TMEntry.pair p) ∈ m → (k2, TMEntry.pair p) ∈ m → k1 = k2

/-- `m'` extends `m` at the end (ids are never removed or reordered). -/
def extendsMap (m m' : TokenMap) : Prop :=
  ∃ tail, m' = m ++ tail

theorem extendsMap_refl (m : TokenMap) : extendsMap m m := ⟨[], by simp⟩

theorem extendsMap_length {m m' : TokenMap} (h : extendsMap m m') :
    m.length ≤ m'.length := by
  obtain ⟨tail, rfl⟩ := h
  simp

/-! ### Lookup lemmas -/

theorem lookupTM_append_left {m : TokenMap} {t : Nat} {e : TMEntry}
    (h : lookupTM m t = some e) (m₂ : TokenMap) :
    lookupTM (m ++ m₂) t = some e := by
  induction m with
  | nil => simp [lookupTM] at h
  | cons kv rest ih =>
    obtain ⟨k, e'⟩ := kv
    by_cases hk : k = t
    · simpa [lookupTM, hk] using h
    · simp only [lookupTM, if_neg hk] at h
      simpa [lookupTM, hk] using ih h

theorem lookupTM_append_right {m : TokenMap} {t : Nat}
    (h : lookupTM m t = none) (m₂ : TokenMap) :
    lookupTM (m ++ m₂) t = lookupTM m₂ t := by
  induction m with
  | nil => simp
  | cons kv rest ih =>
    obtain ⟨k, e'⟩ := kv
    by_cases hk : k = t
    · simp [lookupTM, hk] at h
    · simp only [lookupTM, if_neg hk] at h
      simpa [lookupTM, hk] using ih h

theorem keysCanonical_key_lt {m : TokenMap} (h : keysCanonical m)
    {k : Nat} {e : TMEntry} (hmem : (k, e) ∈ m) : k < m.length := by
  have : k ∈ m.map Prod.fst := List.mem_map.2 ⟨(k, e), hmem, rfl⟩
  rw [h] at this
  exact List.mem_range.1 this

theorem lookupTM_none_of_all_ne {m : TokenMap} {t : Nat}
    (h : ∀ kv ∈ m, kv.1 ≠ t) : lookupTM m t = none := by
  induction m with
  | nil => rfl
  | cons kv rest ih =>
    obtain ⟨k, e⟩ := kv
    have hk : k ≠ t := h (k, e) (by simp)
    simp only [lookupTM, if_neg hk]
    exact ih (fun kv hkv => h kv (by simp [hkv]))

theorem lookupTM_none_of_ge {m : TokenMap} (h : keysCanonical m)
    {t : Nat} (ht : m.length ≤ t) : lookupTM m t = none := by
  refine lookupTM_none_of_all_ne (fun kv hkv => ?_)
  obtain ⟨k, e⟩ := kv
  have hk : k < m.length := keysCanonical_key_lt h hkv
  show ¬ k = t
  omega

theorem keysCanonical_nodup {m : TokenMap} (h : keysCanonical m) :
    (m.map Prod.fst).Nodup := by
  rw [h]; exact List.nodup_range _

theorem lookupTM_of_mem_nodup {m : TokenMap} (hnd : (m.map Prod.fst).Nodup)
    {k : Nat} {e : TMEntry} (hmem : (k, e) ∈ m) : lookupTM m k = some e := by
  induction m with
  | nil => simp at hmem
  | cons kv rest ih =>
    obtain ⟨k', e'⟩ := kv
    simp only [List.map_cons, List.nodup_cons] at hnd
    rcases List.mem_cons.1 hmem with heq | htail
    · obtain ⟨rfl, rfl⟩ := Prod.mk.injEq .. ▸ heq
      simp [lookupTM]
    · have hk : k' ≠ k := by
        intro hk
        exact hnd.1 (hk ▸ List.mem_map.2 ⟨(k, e), htail, rfl⟩)
      simp only [lookupTM, if_neg hk]
      exact ih hnd.2 htail

theorem lookupTM_lt {m : TokenMap} (h : keysCanonical m) {t : Nat}
    (ht : t < m.length) : ∃ e, lookupTM m t = some e ∧ (t, e) ∈ m := by
  have : t ∈ m.map Prod.fst := by rw [h]; exact List.mem_range.2 ht
  obtain ⟨⟨k, e⟩, hmem, hk⟩ := List.mem_map.1 this
  cases hk
  exact ⟨e, lookupTM_of_mem_nodup (keysCanonical_nodup h) hmem, hmem⟩

theorem keysCanonical_append {m : TokenMap} (h : keysCanonical m) (e : TMEntry) :
    keysCanonical (m ++ [(m.length, e)]) := by
  unfold keysCanonical at *
  simp [h, List.range_succ]

/-! ### `findPairId` and `create_or_get_pair` lemmas -/

theorem findPairId_some_mem {m : TokenMap} {p : Pair} {k : Nat}
    (h : findPairId m p = some k) : (k, TMEntry.pair p) ∈ m := by
  induction m with
  | nil => simp [findPairId] at h
  | cons kv rest ih =>
    obtain ⟨k', e'⟩ := kv
    by_cases he : e' = TMEntry.pair p
    · simp only [findPairId, if_pos he] at h
      cases h
      simp [he]
    · simp only [findPairId, if_neg he] at h
      exact List.mem_cons_of_mem _ (ih h)

theorem findPairId_none_not_mem {m : TokenMap} {p : Pair}
    (h : findPairId m p = none) : ∀ k, (k, TMEntry.pair p) ∉ m := by
  induction m with
  | nil => simp
  | cons kv rest ih =>
    obtain ⟨k', e'⟩ := kv
    by_cases he : e' = TMEntry.pair p
    · simp [findPairId, if_pos he] at h
    · simp only [findPairId, if_neg he] at h
      intro k hk
      rcases List.mem_cons.1 hk with heq | htail
      · exact he (congrArg Prod.snd heq).symm
      · exact ih h k htail

theorem findPairId_isSome_of_mem {m : TokenMap} {p : Pair} {k : Nat}
    (hmem : (k, TMEntry.pair p) ∈ m) : ∃ k', findPairId m p = some k' := by
  match hf : findPairId m p with
  | some k' => exact ⟨k', rfl⟩
  | none => exact absurd hmem (findPairId_none_not_mem hf k)

/-! ### The expansion relation

`Expands m t cs` is the big-step reading of `_expand_token`: token `t`
unfolds through the token map to the character codes `cs`, left to right.
It is connected to the fuelled stack machine below. -/

inductive Expands (m : TokenMap) : Nat → List Nat → Prop
  | leaf {t c} : lookupTM m t = some (TMEntry.leaf c) → Expands m t [c]
  | node {t p cl cr} : lookupTM m t = some (TMEntry.pair p) →
      Expands m p.left cl → Expands m p.right cr → Expands m t (cl ++ cr)

theorem expands_mono {m m' : TokenMap} (hext : extendsMap m m')
    {t : Nat} {cs : List Nat} (h : Expands m t cs) : Expands m' t cs := by
  obtain ⟨tail, rfl⟩ := hext
  induction h with
  | leaf hl => exact Expands.leaf (lookupTM_append_left hl tail)
  | node hl _ _ ihl ihr => exact Expands.node (lookupTM_append_left hl tail) ihl ihr

/-- Every token with an entry in a canonical, id-decreasing map expands. -/
theorem expands_exists {m : TokenMap} (hk : keysCanonical m)
    (hd : decreasingMap m) : ∀ t, t < m.length → ∃ cs, Expands m t cs := by
  intro t
  induction t using Nat.strong_induction_on with
  | _ t ih =>
    intro ht
    obtain ⟨e, hl, hmem⟩ := lookupTM_lt hk ht
    cases e with
    | leaf c => exact ⟨[c], Expands.leaf hl⟩
    | pair p =>
      obtain ⟨h1, h2⟩ := hd _ _ hmem
      obtain ⟨cl, hcl⟩ := ih p.left h1 (lt_trans h1 ht)
      obtain ⟨cr, hcr⟩ := ih p.right h2 (lt_trans h2 ht)
      exact ⟨cl ++ cr, Expands.node hl hcl hcr⟩

/-- Running the stack machine on an expandable token consumes it from the
stack, appends its expansion to the output, and continues. -/
theorem expand_loop_shift {m : TokenMap} {t : Nat} {cs : List Nat}
    (h : Expands m t cs) : ∀ acc stack, ∃ fuel, ∀ k,
      expand_loop m (fuel + k) (t :: stack) acc = expand_loop m k stack (acc ++ cs) := by
  induction h with
  | @leaf t c hl =>
    intro acc stack
    refine ⟨1, fun k => ?_⟩
    rw [Nat.add_comm 1 k]
    show expand_loop m (k + 1) (t :: stack) acc = _
    simp [expand_loop, hl]
  | @node t p cl cr hl _ _ ihl ihr =>
    intro acc stack
    obtain ⟨fl, hfl⟩ := ihl acc (p.right :: stack)
    obtain ⟨fr, hfr⟩ := ihr (acc ++ cl) stack
    refine ⟨fl + fr + 1, fun k => ?_⟩
    have e1 : fl + fr + 1 + k = (fl + (fr + k)) + 1 := by omega
    rw [e1]
    show expand_loop m ((fl + (fr + k)) + 1) (t :: stack) acc = _
    simp only [expand_loop, hl]
    rw [hfl (fr + k), hfr k, List.append_assoc]

theorem expand_token_of_expands {m : TokenMap} {t : Nat} {cs : List Nat}
    (h : Expands m t cs) : ∃ fuel, expand_token m fuel t = .ok cs := by
  obtain ⟨fuel, hf⟩ := expand_loop_shift h [] []
  refine ⟨fuel + 0, ?_⟩
  rw [expand_token, hf 0]
  simp [expand_loop]

theorem expand_loop_mono {m : TokenMap} :
    ∀ fuel stack acc r, expand_loop m fuel stack acc = .ok r →
      ∀ k, expand_loop m (fuel + k) stack acc = .ok r := by
  intro fuel
  induction fuel with
  | zero =>
    intro stack acc r h k
    cases stack with
    | nil => simpa [expand_loop] using h
    | cons t s => simp [expand_loop] at h
  | succ f ih =>
    intro stack acc r h k
    cases stack with
    | nil => simpa [expand_loop] using h
    | cons t s =>
      have e1 : f + 1 + k = (f + k) + 1 := by omega
      rw [e1]
      show expand_loop m ((f + k) + 1) (t :: s) acc = .ok r
      simp only [expand_loop] at h ⊢
      cases hl : lookupTM m t with
      | none => rw [hl] at h; exact absurd h (by simp)
      | some e =>
        rw [hl] at h
        cases e with
        | pair p => exact ih _ _ _ h k
        | leaf c => exact ih _ _ _ h k

theorem expand_token_mono {m : TokenMap} {fuel t cs}
    (h : expand_token m fuel t = .ok cs) (k : Nat) :
    expand_token m (fuel + k) t = .ok cs :=
  expand_loop_mono fuel [t] [] cs h k

theorem to_text_loop_mono {m : TokenMap} :
    ∀ ts fuel acc r, to_text_loop m fuel ts acc = .ok r →
      ∀ k, to_text_loop m (fuel + k) ts acc = .ok r := by
  intro ts
  induction ts with
  | nil => intro fuel acc r h k; simpa [to_text_loop] using h
  | cons t ts ih =>
    intro fuel acc r h k
    simp only [to_text_loop] at h ⊢
    cases he : expand_token m fuel t with
    | ok cs =>
      rw [he] at h
      rw [expand_token_mono he k]
      exact ih _ _ _ h k
    | keyError t' => rw [he] at h; exact absurd h (by simp)
    | outOfFuel => rw [he] at h; exact absurd h (by simp)

/-- A whole token sequence expands to the concatenation of the tokens'
individual expansions. -/
def ExpandsList (m : TokenMap) (ts : List Nat) (L : List Nat) : Prop :=
  ∃ css, List.Forall₂ (Expands m) ts css ∧ L = css.flatten

theorem expandsList_mono {m m' : TokenMap} (hext : extendsMap m m')
    {ts L} (h : ExpandsList m ts L) : ExpandsList m' ts L := by
  obtain ⟨css, hf, rfl⟩ := h
  exact ⟨css, hf.imp (fun _ _ he => expands_mono hext he), rfl⟩

theorem ExpandsList.nil_elim {m : TokenMap} {L} (h : ExpandsList m [] L) : L = [] := by
  obtain ⟨css, hf, rfl⟩ := h
  cases hf
  rfl

theorem ExpandsList.nil (m : TokenMap) : ExpandsList m [] [] :=
  ⟨[], List.Forall₂.nil, rfl⟩

theorem ExpandsList.cons_elim {m : TokenMap} {t ts L}
    (h : ExpandsList m (t :: ts) L) :
    ∃ cs L', Expands m t cs ∧ ExpandsList m ts L' ∧ L = cs ++ L' := by
  obtain ⟨css, hf, rfl⟩ := h
  cases hf with
  | cons ht hts => exact ⟨_, _, ht, ⟨_, hts, rfl⟩, rfl⟩

theorem ExpandsList.snoc {m : TokenMap} {ts L t cs}
    (h : ExpandsList m ts L) (ht : Expands m t cs) :
    ExpandsList m (ts ++ [t]) (L ++ cs) := by
  obtain ⟨css, hf, rfl⟩ := h
  refine ⟨css ++ [cs], List.rel_append hf (List.Forall₂.cons ht List.Forall₂.nil), ?_⟩
  simp

/-- Bridge from the relational reading to the fuelled `to_text` loop. -/
theorem to_text_loop_of_expandsList {m : TokenMap} :
    ∀ ts L, ExpandsList m ts L → ∀ acc, ∃ fuel,
      to_text_loop m fuel ts acc = .ok (acc ++ L) := by
  intro ts
  induction ts with
  | nil =>
    intro L h acc
    rw [h.nil_elim]
    exact ⟨0, by simp [to_text_loop]⟩
  | cons t ts ih =>
    intro L h acc
    obtain ⟨cs, L', ht, hts, rfl⟩ := h.cons_elim
    obtain ⟨f1, hf1⟩ := expand_token_of_expands ht
    obtain ⟨f2, hf2⟩ := ih L' hts (acc ++ cs)
    refine ⟨f1 + f2, ?_⟩
    have h1 : expand_token m (f1 + f2) t = .ok cs := expand_token_mono hf1 f2
    have h2 : to_text_loop m (f1 + f2) ts (acc ++ cs) = .ok ((acc ++ cs) ++ L') := by
      have h3 := to_text_loop_mono ts f2 (acc ++ cs) _ hf2 f1
      rwa [Nat.add_comm f2 f1] at h3
    simp only [to_text_loop, h1]
    rw [h2, List.append_assoc]

theorem to_text_of_expandsList {s : State} {L}
    (h : ExpandsList s.token_map s.tokens L) :
    ∃ fuel, to_text fuel s = .ok L := by
  obtain ⟨fuel, hf⟩ := to_text_loop_of_expandsList s.tokens L h []
  exact ⟨fuel, by simpa [to_text] using hf⟩

/-! ### `create_or_get_pair` and the map across one rewrite pass -/

theorem merge_scan_nil (ptr : Pair) (acc : List Nat) (f : Freqs) (m : TokenMap) :
    merge_scan ptr [] acc f m = (acc, f, m) := by
  rw [merge_scan.eq_def]

theorem merge_scan_single (ptr : Pair) (t : Nat) (acc : List Nat) (f : Freqs)
    (m : TokenMap) : merge_scan ptr [t] acc f m = (acc ++ [t], f, m) := by
  rw [merge_scan.eq_def]

theorem merge_scan_cons (ptr : Pair) (t0 t1 : Nat) (rest acc : List Nat)
    (f : Freqs) (m : TokenMap) :
    merge_scan ptr (t0 :: t1 :: rest) acc f m =
      if Pair.mk t0 t1 = ptr then
        merge_scan ptr rest (acc ++ [(create_or_get_pair m (Pair.mk t0 t1)).1])
          (account_for_substitution f acc.getLast? (Pair.mk t0 t1) rest.head?
            (create_or_get_pair m (Pair.mk t0 t1)).1)
          (create_or_get_pair m (Pair.mk t0 t1)).2
      else merge_scan ptr (t1 :: rest) (acc ++ [t0]) f m := by
  rw [merge_scan.eq_def]

theorem create_or_get_found {m : TokenMap} {p : Pair} {k : Nat}
    (h : findPairId m p = some k) : create_or_get_pair m p = (k, m) := by
  simp [create_or_get_pair, h]

theorem create_or_get_new {m : TokenMap} {p : Pair} (h : findPairId m p = none) :
    create_or_get_pair m p = (m.length, m ++ [(m.length, TMEntry.pair p)]) := by
  simp [create_or_get_pair, h]

theorem create_or_get_inj {m : TokenMap} {p : Pair} (hinj : pairInjective m) :
    pairInjective (create_or_get_pair m p).2 := by
  cases hf : findPairId m p with
  | some k => rw [create_or_get_found hf]; exact hinj
  | none =>
    rw [create_or_get_new hf]
    intro k1 k2 q h1 h2
    rcases List.mem_append.1 h1 with h1' | h1' <;>
      rcases List.mem_append.1 h2 with h2' | h2'
    · exact hinj k1 k2 q h1' h2'
    · simp only [List.mem_singleton, Prod.mk.injEq, TMEntry.pair.injEq] at h2'
      obtain ⟨rfl, rfl⟩ := h2'
      exact absurd h1' (findPairId_none_not_mem hf k1)
    · simp only [List.mem_singleton, Prod.mk.injEq, TMEntry.pair.injEq] at h1'
      obtain ⟨rfl, rfl⟩ := h1'
      exact absurd h2' (findPairId_none_not_mem hf k2)
    · simp only [List.mem_singleton, Prod.mk.injEq, TMEntry.pair.injEq] at h1' h2'
      omega

/-- Across one rewrite pass the token map is unchanged, or (only when the
chosen pair had no id yet) grows by exactly the one entry
`len(map) ↦ pair`; once the pair has an id, later occurrences reuse it. -/
theorem merge_scan_map (ptr : Pair) :
    ∀ (rest acc : List Nat) (f : Freqs) (m : TokenMap),
      ((∃ k, (k, TMEntry.pair ptr) ∈ m) → (merge_scan ptr rest acc f m).2.2 = m) ∧
      ((merge_scan ptr rest acc f m).2.2 = m ∨
        (merge_scan ptr rest acc f m).2.2 = m ++ [(m.length, TMEntry.pair ptr)]) := by
  intro rest acc f m
  induction rest, acc, f, m using merge_scan.induct ptr with
  | case1 acc f m => simp [merge_scan_nil]
  | case2 t acc f m => simp [merge_scan_single]
  | case3 t0 t1 rest acc f m h r ih =>
    subst h
    have hr : r = create_or_get_pair m (Pair.mk t0 t1) := rfl
    rw [hr] at ih
    rw [merge_scan_cons, if_pos rfl]
    cases hf : findPairId m (Pair.mk t0 t1) with
    | some k =>
      rw [create_or_get_found hf] at ih ⊢
      have hres := ih.1 ⟨k, findPairId_some_mem hf⟩
      exact ⟨fun _ => hres, Or.inl hres⟩
    | none =>
      rw [create_or_get_new hf] at ih ⊢
      have hres := ih.1 ⟨m.length, List.mem_append_right _ (by simp)⟩
      refine ⟨fun hk => ?_, Or.inr hres⟩
      obtain ⟨k, hk⟩ := hk
      exact absurd hk (findPairId_none_not_mem hf k)
  | case4 t0 t1 rest acc f m h ih =>
    rw [merge_scan_cons, if_neg h]
    exact ih

theorem merge_scan_inj (ptr : Pair) :
    ∀ (rest acc : List Nat) (f : Freqs) (m : TokenMap),
      pairInjective m → pairInjective (merge_scan ptr rest acc f m).2.2 := by
  intro rest acc f m
  induction rest, acc, f, m using merge_scan.induct ptr with
  | case1 acc f m => intro h; simpa [merge_scan_nil] using h
  | case2 t acc f m => intro h; simpa [merge_scan_single] using h
  | case3 t0 t1 rest acc f m h r ih =>
    intro hinj
    rw [merge_scan_cons, if_pos h]
    exact ih (create_or_get_inj hinj)
  | case4 t0 t1 rest acc f m h ih =>
    intro hinj
    rw [merge_scan_cons, if_neg h]
    exact ih hinj

/-- Each merge occurrence removes exactly one token: the output length plus
the number of merges equals the input length. -/
theorem merge_scan_tokens_length (ptr : Pair) :
    ∀ (rest acc : List Nat) (f : Freqs) (m : TokenMap),
      (merge_scan ptr rest acc f m).1.length + countPairOcc ptr rest
        = acc.length + rest.length := by
  intro rest acc f m
  induction rest, acc, f, m using merge_scan.induct ptr with
  | case1 acc f m => simp [merge_scan_nil, countPairOcc]
  | case2 t acc f m => simp [merge_scan_single, countPairOcc]
  | case3 t0 t1 rest acc f m h r ih =>
    have hr : r = create_or_get_pair m (Pair.mk t0 t1) := rfl
    rw [hr] at ih
    rw [merge_scan_cons, if_pos h, countPairOcc, if_pos h]
    simp only [List.length_append, List.length_cons, List.length_singleton,
      List.length_nil] at ih ⊢
    omega
  | case4 t0 t1 rest acc f m h ih =>
    rw [merge_scan_cons, if_neg h, countPairOcc, if_neg h]
    simp only [List.length_append, List.length_cons, List.length_singleton,
      List.length_nil] at ih ⊢
    omega

theorem extendsMap_trans {m1 m2 m3 : TokenMap}
    (h1 : extendsMap m1 m2) (h2 : extendsMap m2 m3) : extendsMap m1 m3 := by
  obtain ⟨a, rfl⟩ := h1
  obtain ⟨b, rfl⟩ := h2
  exact ⟨a ++ b, by simp⟩

/-- Main preservation lemma for one rewrite pass: canonical keys, decreasing
ids and token validity are maintained, and the concatenated expansion of the
produced sequence equals the one of `acc ++ rest`. -/
theorem merge_scan_spec (ptr : Pair) :
    ∀ (rest acc : List Nat) (f : Freqs) (m : TokenMap),
      keysCanonical m → decreasingMap m →
      (∀ t ∈ rest, t < m.length) → (∀ t ∈ acc, t < m.length) →
      keysCanonical (merge_scan ptr rest acc f m).2.2 ∧
      decreasingMap (merge_scan ptr rest acc f m).2.2 ∧
      extendsMap m (merge_scan ptr rest acc f m).2.2 ∧
      (∀ t ∈ (merge_scan ptr rest acc f m).1,
        t < (merge_scan ptr rest acc f m).2.2.length) ∧
      (∀ La Lr, ExpandsList m acc La → ExpandsList m rest Lr →
        ExpandsList (merge_scan ptr rest acc f m).2.2
          (merge_scan ptr rest acc f m).1 (La ++ Lr)) := by
  intro rest acc f m
  induction rest, acc, f, m using merge_scan.induct ptr with
  | case1 acc f m =>
    intro hk hd _ hacc
    rw [merge_scan_nil]
    refine ⟨hk, hd, extendsMap_refl m, hacc, ?_⟩
    intro La Lr hLa hLr
    rw [hLr.nil_elim, List.append_nil]
    exact hLa
  | case2 t acc f m =>
    intro hk hd hrest hacc
    rw [merge_scan_single]
    refine ⟨hk, hd, extendsMap_refl m, ?_, ?_⟩
    · intro x hx
      rcases List.mem_append.1 hx with hx' | hx'
      · exact hacc x hx'
      · simp only [List.mem_singleton] at hx'
        subst hx'
        exact hrest x (by simp)
    · intro La Lr hLa hLr
      obtain ⟨cs, L', ht, hL', rfl⟩ := hLr.cons_elim
      rw [hL'.nil_elim, List.append_nil]
      exact hLa.snoc ht
  | case3 t0 t1 rest acc f m h r ih =>
    subst h
    have hr : r = create_or_get_pair m (Pair.mk t0 t1) := rfl
    rw [hr] at ih
    intro hk hd hrest hacc
    rw [merge_scan_cons, if_pos rfl]
    rcases hco : create_or_get_pair m (Pair.mk t0 t1) with ⟨nt, m'⟩
    rw [hco] at ih
    dsimp only at ih ⊢
    have hfacts : extendsMap m m' ∧ keysCanonical m' ∧ decreasingMap m' ∧
        nt < m'.length ∧ lookupTM m' nt = some (TMEntry.pair (Pair.mk t0 t1)) := by
      cases hf : findPairId m (Pair.mk t0 t1) with
      | some k =>
        rw [create_or_get_found hf] at hco
        obtain ⟨rfl, rfl⟩ := Prod.mk.injEq .. ▸ hco
        have hmem := findPairId_some_mem hf
        exact ⟨extendsMap_refl m, hk, hd, keysCanonical_key_lt hk hmem,
          lookupTM_of_mem_nodup (keysCanonical_nodup hk) hmem⟩
      | none =>
        rw [create_or_get_new hf] at hco
        obtain ⟨rfl, rfl⟩ := Prod.mk.injEq .. ▸ hco
        refine ⟨⟨_, rfl⟩, keysCanonical_append hk _, ?_, by simp, ?_⟩
        · intro k' p' hmem
          rcases List.mem_append.1 hmem with hm | hm
          · exact hd _ _ hm
          · simp only [List.mem_singleton, Prod.mk.injEq, TMEntry.pair.injEq] at hm
            obtain ⟨rfl, rfl⟩ := hm
            exact ⟨hrest t0 (by simp), hrest t1 (by simp)⟩
        · rw [lookupTM_append_right (lookupTM_none_of_ge hk (le_refl _))]
          simp [lookupTM]
    obtain ⟨hext, hk', hd', hnt, hlook⟩ := hfacts
    have hlen := extendsMap_length hext
    have hrest' : ∀ t ∈ rest, t < m'.length := fun t htm =>
      lt_of_lt_of_le (hrest t (by simp [htm])) hlen
    have hacc' : ∀ t ∈ acc ++ [nt], t < m'.length := by
      intro t htm
      rcases List.mem_append.1 htm with hm | hm
      · exact lt_of_lt_of_le (hacc t hm) hlen
      · simp only [List.mem_singleton] at hm
        subst hm
        exact hnt
    obtain ⟨rk, rd, rext, rtok, rexp⟩ := ih hk' hd' hrest' hacc'
    refine ⟨rk, rd, extendsMap_trans hext rext, rtok, ?_⟩
    intro La Lr hLa hLr
    obtain ⟨cs0, L1, ht0, hL1, rfl⟩ := hLr.cons_elim
    obtain ⟨cs1, L2, ht1, hL2, rfl⟩ := hL1.cons_elim
    have hnt_exp : Expands m' nt (cs0 ++ cs1) :=
      Expands.node hlook (expands_mono hext ht0) (expands_mono hext ht1)
    have hres := rexp (La ++ (cs0 ++ cs1)) L2
      ((expandsList_mono hext hLa).snoc hnt_exp) (expandsList_mono hext hL2)
    rw [show La ++ (cs0 ++ (cs1 ++ L2)) = (La ++ (cs0 ++ cs1)) ++ L2 by simp]
    exact hres
  | case4 t0 t1 rest acc f m h ih =>
    intro hk hd hrest hacc
    rw [merge_scan_cons, if_neg h]
    have hrest' : ∀ t ∈ t1 :: rest, t < m.length := fun t htm =>
      hrest t (List.mem_cons_of_mem _ htm)
    have hacc' : ∀ t ∈ acc ++ [t0], t < m.length := by
      intro t htm
      rcases List.mem_append.1 htm with hm | hm
      · exact hacc t hm
      · simp only [List.mem_singleton] at hm
        subst hm
        exact hrest t (by simp)
    obtain ⟨rk, rd, rext, rtok, rexp⟩ := ih hk hd hrest' hacc'
    refine ⟨rk, rd, rext, rtok, ?_⟩
    intro La Lr hLa hLr
    obtain ⟨cs0, L1, ht0, hL1, rfl⟩ := hLr.cons_elim
    have hres := rexp (La ++ cs0) L1 (hLa.snoc ht0) hL1
    rw [show La ++ (cs0 ++ L1) = (La ++ cs0) ++ L1 by simp]
    exact hres

/-! ### Invariants of reachable training states -/

/-- The structural invariant of a training state: canonical keys, ids
decreasing through pair entries, and every live token having an entry. -/
structure StateInv (s : State) : Prop where
  keys : keysCanonical s.token_map
  dec : decreasingMap s.token_map
  toks : ∀ t ∈ s.tokens, t < s.token_map.length

theorem step_preserves {s s' : State} (hInv : StateInv s) (h : step s = some s') :
    StateInv s' ∧ extendsMap s.token_map s'.token_map ∧
      (∀ L, ExpandsList s.token_map s.tokens L →
        ExpandsList s'.token_map s'.tokens L) := by
  rw [step] at h
  cases hmu : most_used s.frequencies with
  | none => rw [hmu] at h; exact absurd h (by simp)
  | some pc =>
    rw [hmu] at h
    dsimp only at h
    by_cases hc : pc.2 = 1
    · rw [if_pos hc] at h
      cases h
      exact ⟨hInv, extendsMap_refl _, fun L hL => hL⟩
    · rw [if_neg hc] at h
      obtain ⟨hk, hd, hext, htok, hexp⟩ :=
        merge_scan_spec pc.1 s.tokens [] s.frequencies s.token_map
          hInv.keys hInv.dec hInv.toks (by simp)
      cases h
      refine ⟨⟨hk, hd, htok⟩, hext, fun L hL => ?_⟩
      have hres := hexp [] L (ExpandsList.nil _) hL
      rwa [List.nil_append] at hres

theorem stepN_preserves : ∀ (n : Nat) (s s' : State), StateInv s →
    stepN n s = some s' →
    StateInv s' ∧ (∀ L, ExpandsList s.token_map s.tokens L →
      ExpandsList s'.token_map s'.tokens L) := by
  intro n
  induction n with
  | zero =>
    intro s s' hInv h
    cases h
    exact ⟨hInv, fun L hL => hL⟩
  | succ n ih =>
    intro s s' hInv h
    rw [stepN] at h
    cases hs : step s with
    | none => rw [hs] at h; exact absurd h (by simp)
    | some s1 =>
      rw [hs] at h
      obtain ⟨hInv1, _, hexp1⟩ := step_preserves hInv hs
      obtain ⟨hInv2, hexp2⟩ := ih s1 s' hInv1 h
      exact ⟨hInv2, fun L hL => hexp2 L (hexp1 L hL)⟩

/-! ### Facts about the initial state -/

theorem base_map_length : base_map.length = 256 := by
  simp [base_map]

theorem base_map_keys : keysCanonical base_map := by
  unfold keysCanonical base_map
  simp only [List.map_map, List.length_map, List.length_range]
  have h : (Prod.fst ∘ fun i : Nat => (i, TMEntry.leaf i)) = id := rfl
  rw [h, List.map_id]

theorem base_map_no_pair : ∀ k p, (k, TMEntry.pair p) ∈ base_map → False := by
  intro k p h
  simp only [base_map, List.mem_map, List.mem_range] at h
  obtain ⟨i, _, hi⟩ := h
  have := congrArg Prod.snd hi
  simp at this

theorem base_map_lookup {c : Nat} (hc : c < 256) :
    lookupTM base_map c = some (TMEntry.leaf c) := by
  have hmem : (c, TMEntry.leaf c) ∈ base_map := by
    simp only [base_map, List.mem_map, List.mem_range]
    exact ⟨c, hc, rfl⟩
  exact lookupTM_of_mem_nodup (keysCanonical_nodup base_map_keys) hmem

theorem inv_from_text {text : List Nat} (hc : ∀ c ∈ text, c < 256) :
    StateInv (from_text text) := by
  refine ⟨base_map_keys, fun k p h => absurd h (by exact base_map_no_pair k p), ?_⟩
  intro t ht
  show t < base_map.length
  rw [base_map_length]
  exact hc t ht

theorem expandsList_from_text {text : List Nat} (hc : ∀ c ∈ text, c < 256) :
    ExpandsList base_map text text := by
  induction text with
  | nil => exact ExpandsList.nil _
  | cons c rest ih =>
    have h1 : Expands base_map c [c] := Expands.leaf (base_map_lookup (hc c (by simp)))
    obtain ⟨css, hf, rfl⟩ := ih (fun x hx => hc x (by simp [hx]))
    exact ⟨[c] :: css, List.Forall₂.cons h1 hf, by simp⟩

/-- Shared helper: decoding is exact after any number of merge steps, for
texts whose code points are all covered by the base alphabet. -/
theorem roundtrip_helper {text : List Nat} (hc : ∀ c ∈ text, c < 256)
    {n : Nat} {s : State} (h : stepN n (from_text text) = some s) :
    ∃ fuel, to_text fuel s = .ok text := by
  obtain ⟨_, hexp⟩ := stepN_preserves n _ s (inv_from_text hc) h
  exact to_text_of_expandsList (hexp text (expandsList_from_text hc))

/-! ### Injectivity of the merge table along a run -/

theorem base_map_inj : pairInjective base_map :=
  fun k1 k2 p h1 _ => absurd h1 (by exact base_map_no_pair k1 p)

theorem step_inj {s s' : State} (h : step s = some s')
    (hinj : pairInjective s.token_map) : pairInjective s'.token_map := by
  rw [step] at h
  cases hmu : most_used s.frequencies with
  | none => rw [hmu] at h; exact absurd h (by simp)
  | some pc =>
    rw [hmu] at h
    dsimp only at h
    by_cases hc : pc.2 = 1
    · rw [if_pos hc] at h
      cases h
      exact hinj
    · rw [if_neg hc] at h
      cases h
      exact merge_scan_inj pc.1 s.tokens [] s.frequencies s.token_map hinj

theorem stepN_inj : ∀ (n : Nat) (s s' : State), stepN n s = some s' →
    pairInjective s.token_map → pairInjective s'.token_map := by
  intro n
  induction n with
  | zero => intro s s' h hinj; cases h; exact hinj
  | succ n ih =>
    intro s s' h hinj
    rw [stepN] at h
    cases hs : step s with
    | none => rw [hs] at h; exact absurd h (by simp)
    | some s1 =>
      rw [hs] at h
      exact ih s1 s' h (step_inj hs hinj)

/-- The token map grows by at most one entry in one step. -/
theorem step_map_growth {s s' : State} (h : step s = some s') :
    s'.token_map.length ≤ s.token_map.length + 1 := by
  rw [step] at h
  cases hmu : most_used s.frequencies with
  | none => rw [hmu] at h; exact absurd h (by simp)
  | some pc =>
    rw [hmu] at h
    dsimp only at h
    by_cases hc : pc.2 = 1
    · rw [if_pos hc] at h
      cases h
      omega
    · rw [if_neg hc] at h
      cases h
      rcases (merge_scan_map pc.1 s.tokens [] s.frequencies s.token_map).2 with
        heq | heq
      · show (merge_scan pc.1 s.tokens [] s.frequencies s.token_map).2.2.length ≤ _
        rw [heq]
        omega
      · show (merge_scan pc.1 s.tokens [] s.frequencies s.token_map).2.2.length ≤ _
        rw [heq]
        simp

theorem expandable_helper {s : State} (hInv : StateInv s) :
    ∀ t ∈ s.tokens, ∃ fuel cs, expand_token s.token_map fuel t = .ok cs := by
  intro t ht
  obtain ⟨cs, hcs⟩ := expands_exists hInv.keys hInv.dec t (hInv.toks t ht)
  obtain ⟨fuel, hf⟩ := expand_token_of_expands hcs
  exact ⟨fuel, cs, hf⟩

theorem lookup_base_big : lookupTM base_map 8364 = none :=
  lookupTM_none_of_ge base_map_keys (by rw [base_map_length]; omega)

theorem to_text_euro (fuel : Nat) :
    to_text (fuel + 1) (from_text [8364]) = .keyError 8364 := by
  show to_text_loop base_map (fuel + 1) [8364] [] = _
  simp only [to_text_loop, expand_token, expand_loop, lookup_base_big]

theorem to_text_euro_zero : to_text 0 (from_text [8364]) = .outOfFuel := by
  show to_text_loop base_map 0 [8364] [] = _
  simp only [to_text_loop, expand_token, expand_loop]

set_option maxRecDepth 1000000

/-! ### The claims -/

/-- C1 (code bug): the incrementally maintained frequency table can
desynchronise from a from-scratch recount of the token sequence.  After one
`step` on the text "aa\x00aa" (codes `[97, 97, 0, 97, 97]`) the sequence is
`[256, 0, 256]`; a from-scratch recount gives 0 occurrences for the pairs
`(97, 0)` and `(0, 97)`, yet the incremental table still records count 1 for
both, because `account_for_substitution` skips the boundary updates whenever
the neighbouring token id is 0: the Python guard `if left_token:` (likewise
`if right_token:`) is false for the NUL token id 0, not only for `None`. -/
theorem freq_table_desync_on_nul :
    (step (from_text [97, 97, 0, 97, 97])).map
      (fun s => (s.tokens,
        getCount s.frequencies (Pair.mk 97 0),
        getCount (counterOf (pairwiseList s.tokens)) (Pair.mk 97 0),
        getCount s.frequencies (Pair.mk 0 97),
        getCount (counterOf (pairwiseList s.tokens)) (Pair.mk 0 97))) =
      some ([256, 0, 256], 1, 0, 1, 0) := by
  decide

/-- C2 (amended): for every input text all of whose code points are below
256, decoding is a left-inverse of encoding at every point of training:
after any number of merge steps, `to_text` reproduces the text exactly
(with enough fuel, the decode loop halts with exactly the original text). -/
theorem to_text_roundtrip_after_steps (text : List Nat)
    (hc : ∀ c ∈ text, c < 256) (n : Nat) (s : State)
    (h : stepN n (from_text text) = some s) :
    ∃ fuel, to_text fuel s = ExpandResult.ok text :=
  roundtrip_helper hc h

/-- C2 counterexample: for the one-character text "€" (code point 8364),
`from_text` succeeds but `to_text` never returns the text: the decode loop
raises `KeyError` since id 8364 has no token-map entry, so the claimed
round-trip `to_text(from_text(T)) == T` fails for this input. -/
theorem to_text_roundtrip_fails_on_euro :
    ¬ ∃ fuel, to_text fuel (from_text [8364]) = ExpandResult.ok [8364] := by
  rintro ⟨fuel, hf⟩
  cases fuel with
  | zero =>
    rw [to_text_euro_zero] at hf
    exact ExpandResult.noConfusion hf
  | succ f =>
    rw [to_text_euro f] at hf
    exact ExpandResult.noConfusion hf

/-- C2 witness: the round-trip theorem applied to the text "aaa" after one
merge step. -/
theorem to_text_roundtrip_witness :
    ∃ s, stepN 1 (from_text [97, 97, 97]) = some s ∧
      ∃ fuel, to_text fuel s = ExpandResult.ok [97, 97, 97] := by
  refine ⟨State.mk [256, 97] [(Pair.mk 97 97, 0), (Pair.mk 256 97, 1)]
    (base_map ++ [(256, TMEntry.pair (Pair.mk 97 97))]), by decide, ?_⟩
  exact to_text_roundtrip_after_steps [97, 97, 97] (by decide) 1 _ (by decide)

/-- C3 (code bug): `account_for_substitution` does not apply the boundary
updates unconditionally when a neighbour exists: a left neighbour with token
id 0 is treated like an absent neighbour (Python truthiness), so neither the
decrement of `(left, pair.left)` nor the increment of `(left, new_token)`
happens; with any non-zero left neighbour (here 98) both updates happen. -/
theorem account_skips_nul_neighbor :
    account_for_substitution [] (some 0) (Pair.mk 97 97) none 256 =
      [(Pair.mk 97 97, -1)] ∧
    account_for_substitution [] (some 98) (Pair.mk 97 97) none 256 =
      [(Pair.mk 98 97, -1), (Pair.mk 98 256, 1), (Pair.mk 97 97, -1)] := by
  decide

/-- C4 (amended): for every state whose most frequent pair has count
exactly 1, `step` returns a state equal to its input.  (The original
claim's "count at most 1" and its empty-table case both fail; see the
counterexample: the code tests `count == 1`, so a maximum count of 0 is
scanned and merged, and an empty table raises.) -/
theorem step_noop_on_count_one (s : State) (p : Pair)
    (h : most_used s.frequencies = some (p, 1)) : step s = some s := by
  rw [step, h]
  simp

/-- C4 counterexample, both deviations of `step` from the claim as stated.
(1) On a state with an empty frequency table — here `from_text` of the
empty text — `step` raises `IndexError` inside `most_used`
(`most_common(1)[0]` on an empty counter), modelled by `none`, rather than
returning the input state.  (2) On a state whose most frequent pair has
count 0 — which is "at most 1" — while the pair still occurs in the
sequence, `step` does not return a state equal to its input: the
`count == 1` test is false for 0, so the rewrite pass runs and merges. -/
theorem step_raises_on_empty_and_merges_on_count_zero :
    step (from_text []) = none ∧
    step (State.mk [97, 97] [(Pair.mk 97 97, 0)] base_map) =
      some (State.mk [256] [(Pair.mk 97 97, -1)]
        (base_map ++ [(256, TMEntry.pair (Pair.mk 97 97))])) ∧
    step (State.mk [97, 97] [(Pair.mk 97 97, 0)] base_map) ≠
      some (State.mk [97, 97] [(Pair.mk 97 97, 0)] base_map) := by
  exact ⟨by decide, by decide, by decide⟩

/-- C4 witness: the no-op theorem applied to "abc", whose pairs are all
unique. -/
theorem step_noop_witness :
    step (from_text [97, 98, 99]) = some (from_text [97, 98, 99]) :=
  step_noop_on_count_one (from_text [97, 98, 99]) (Pair.mk 97 98) (by decide)

/-- C5: one `step` on "aaa" produces tokens `[256, ord('a')]`, frequency 1
for `Pair(256, 'a')`, frequency 0 for `Pair('a', 'a')`, and the token map
extended by exactly the entry `256 ↦ Pair('a', 'a')`. -/
theorem first_merge_on_aaa :
    (step (from_text [97, 97, 97])).map
      (fun s => (s.tokens, getCount s.frequencies (Pair.mk 256 97),
        getCount s.frequencies (Pair.mk 97 97), s.token_map)) =
      some ([256, 97], 1, 0, base_map ++ [(256, TMEntry.pair (Pair.mk 97 97))]) := by
  decide

/-- C6: (1) in every state reachable from `from_text` by merge steps no two
distinct ids map to the same `Pair`; (2) `create_or_get_pair` on a pair that
already has an id returns that id and leaves the table unchanged; (3) one
`step` grows the token map by at most one entry. -/
theorem merge_table_injectivity :
    (∀ (text : List Nat) (n : Nat) (s : State),
      stepN n (from_text text) = some s → pairInjective s.token_map) ∧
    (∀ (m : TokenMap) (p : Pair) (k : Nat), pairInjective m →
      (k, TMEntry.pair p) ∈ m → create_or_get_pair m p = (k, m)) ∧
    (∀ (s s' : State), step s = some s' →
      s'.token_map.length ≤ s.token_map.length + 1) := by
  refine ⟨?_, ?_, ?_⟩
  · intro text n s h
    exact stepN_inj n _ s h base_map_inj
  · intro m p k hinj hmem
    obtain ⟨k', hk'⟩ := findPairId_isSome_of_mem hmem
    have hkk : k' = k := hinj k' k p (findPairId_some_mem hk') hmem
    subst hkk
    exact create_or_get_found hk'
  · intro s s' h
    exact step_map_growth h

/-- C6 witness: the three parts instantiated on the state reached from "aaa"
after one step. -/
theorem merge_table_injectivity_witness :
    pairInjective (base_map ++ [(256, TMEntry.pair (Pair.mk 97 97))]) ∧
    create_or_get_pair (base_map ++ [(256, TMEntry.pair (Pair.mk 97 97))])
      (Pair.mk 97 97) =
      (256, base_map ++ [(256, TMEntry.pair (Pair.mk 97 97))]) ∧
    (State.mk [256, 97] [(Pair.mk 97 97, 0), (Pair.mk 256 97, 1)]
      (base_map ++ [(256, TMEntry.pair (Pair.mk 97 97))])).token_map.length ≤
      (from_text [97, 97, 97]).token_map.length + 1 := by
  have hinj : pairInjective (base_map ++ [(256, TMEntry.pair (Pair.mk 97 97))]) :=
    merge_table_injectivity.1 [97, 97, 97] 1
      (State.mk [256, 97] [(Pair.mk 97 97, 0), (Pair.mk 256 97, 1)]
        (base_map ++ [(256, TMEntry.pair (Pair.mk 97 97))])) (by decide)
  refine ⟨hinj, ?_, ?_⟩
  · exact merge_table_injectivity.2.1 _ (Pair.mk 97 97) 256 hinj
      (List.mem_append_right _ (List.mem_singleton.mpr rfl))
  · exact merge_table_injectivity.2.2 (from_text [97, 97, 97]) _ (by decide)

/-- C7 (amended): for every text whose code points are all below 256 and
every state reachable from it, each synthesized id is strictly greater than
both ids of the pair it maps to, and the `_expand_token` stack loop halts
normally on every live token (some fuel suffices and yields a result). -/
theorem ids_decreasing_and_expand_terminates (text : List Nat)
    (hc : ∀ c ∈ text, c < 256) (n : Nat) (s : State)
    (h : stepN n (from_text text) = some s) :
    (∀ k p, (k, TMEntry.pair p) ∈ s.token_map → p.left < k ∧ p.right < k) ∧
    (∀ t ∈ s.tokens, ∃ fuel cs, expand_token s.token_map fuel t = ExpandResult.ok cs) := by
  obtain ⟨hInv, _⟩ := stepN_preserves n _ s (inv_from_text hc) h
  exact ⟨hInv.dec, expandable_helper hInv⟩

/-- C7 counterexample: from the text "€a€a" (codes `[8364, 97, 8364, 97]`),
one step creates the entry `256 ↦ Pair(8364, 97)`, whose left id 8364 is not
smaller than the synthesized id 256 — the claimed ordering fails for
reachable states when a code point is outside the base alphabet. -/
theorem ids_not_decreasing_on_wide_char :
    (stepN 1 (from_text [8364, 97, 8364, 97])).map
      (fun s => decide ((256, TMEntry.pair (Pair.mk 8364 97)) ∈ s.token_map)) =
      some true ∧ ¬ (8364 < 256) := by
  exact ⟨by decide, by decide⟩

/-- C7 witness: the amended theorem applied to "aaa" after one step; the
merged token 256 expands. -/
theorem ids_decreasing_witness :
    ∃ fuel cs, expand_token (base_map ++ [(256, TMEntry.pair (Pair.mk 97 97))])
      fuel 256 = ExpandResult.ok cs := by
  have h := ids_decreasing_and_expand_terminates [97, 97, 97] (by decide) 1
    (State.mk [256, 97] [(Pair.mk 97 97, 0), (Pair.mk 256 97, 1)]
      (base_map ++ [(256, TMEntry.pair (Pair.mk 97 97))])) (by decide)
  exact h.2 256 (by decide)

/-- C8: one `step` never lengthens the token sequence; when the chosen pair
is actually merged (`count != 1` branch), the new length plus the number of
merge occurrences (`countPairOcc`, each removing exactly one token) equals
the old length, so the sequence is strictly shorter whenever at least one
merge occurs. -/
theorem step_length_monotone (s s' : State) (h : step s = some s') :
    s'.tokens.length ≤ s.tokens.length ∧
    (∀ p c, most_used s.frequencies = some (p, c) → c ≠ 1 →
      s'.tokens.length + countPairOcc p s.tokens = s.tokens.length ∧
      (1 ≤ countPairOcc p s.tokens → s'.tokens.length < s.tokens.length)) := by
  rw [step] at h
  cases hmu : most_used s.frequencies with
  | none => rw [hmu] at h; exact absurd h (by simp)
  | some pc =>
    rw [hmu] at h
    dsimp only at h
    by_cases hc : pc.2 = 1
    · rw [if_pos hc] at h
      cases h
      refine ⟨le_refl _, ?_⟩
      intro p c hpc hne
      have hpc2 := Option.some.inj hpc
      subst hpc2
      exact absurd hc hne
    · rw [if_neg hc] at h
      cases h
      have hlen := merge_scan_tokens_length pc.1 s.tokens [] s.frequencies s.token_map
      simp only [List.length_nil, Nat.zero_add] at hlen
      refine ⟨?_, ?_⟩
      · show (merge_scan pc.1 s.tokens [] s.frequencies s.token_map).1.length ≤ _
        omega
      · intro p c hpc hne
        have hpc2 := Option.some.inj hpc
        subst hpc2
        dsimp only at hlen hc ⊢
        constructor
        · exact hlen
        · intro hocc
          show (merge_scan p s.tokens [] s.frequencies s.token_map).1.length < _
          omega

/-- C8 witness: the length theorem applied to "aaa" and its successor. -/
theorem step_length_monotone_witness :
    (State.mk [256, 97] [(Pair.mk 97 97, 0), (Pair.mk 256 97, 1)]
      (base_map ++ [(256, TMEntry.pair (Pair.mk 97 97))])).tokens.length ≤
      (from_text [97, 97, 97]).tokens.length :=
  (step_length_monotone (from_text [97, 97, 97])
    (State.mk [256, 97] [(Pair.mk 97 97, 0), (Pair.mk 256 97, 1)]
      (base_map ++ [(256, TMEntry.pair (Pair.mk 97 97))])) (by decide)).1

/-- C9 (code bug): the training loop need not terminate.  On the text
"aa\x00aa\x00aa" (codes `[97, 97, 0, 97, 97, 0, 97, 97]`), after one step
the state is a fixpoint of `step` while the loop condition
`most_used(...)...count > 1` is still true (the table still records count 2
for the stale pair `(97, 0)`, which no longer occurs, due to the skipped
NUL-neighbour updates), so `main`'s `while` loop runs forever; any iteration
budget is exhausted (`fuelOut`). -/
theorem training_loop_diverges_on_nul :
    (step (from_text [97, 97, 0, 97, 97, 0, 97, 97])).bind step =
      step (from_text [97, 97, 0, 97, 97, 0, 97, 97]) ∧
    (step (from_text [97, 97, 0, 97, 97, 0, 97, 97])).map loopCond =
      some (some true) ∧
    trainLoop (from_text [97, 97, 0, 97, 97, 0, 97, 97]) 5 =
      .fuelOut ((step (from_text [97, 97, 0, 97, 97, 0, 97, 97])).getD
        (from_text [97, 97, 0, 97, 97, 0, 97, 97])) := by
  exact ⟨by decide, by decide, by decide⟩

/-- C10: `from_text` validates nothing.  (1) For texts whose code points are
all below 256, every produced token has a token-map entry and decoding is
well defined (it halts with exactly the original text).  (2) For the text
"€" (code 8364), `from_text` succeeds but `to_text` raises `KeyError 8364`
for every fuel: the leaf token has no token-map entry. -/
theorem from_text_unvalidated_roundtrip_split :
    (∀ text : List Nat, (∀ c ∈ text, c < 256) →
      (∀ t ∈ (from_text text).tokens,
        ∃ e, lookupTM (from_text text).token_map t = some e) ∧
      (∃ fuel, to_text fuel (from_text text) = ExpandResult.ok text)) ∧
    (∀ fuel, to_text (fuel + 1) (from_text [8364]) = ExpandResult.keyError 8364) := by
  constructor
  · intro text hc
    constructor
    · intro t ht
      exact ⟨TMEntry.leaf t, base_map_lookup (hc t ht)⟩
    · exact roundtrip_helper hc (n := 0) rfl
  · exact to_text_euro

/-- C10 witness: the roundtrip half on the text "hi", the failing half at
fuel 1. -/
theorem from_text_unvalidated_witness :
    (∃ fuel, to_text fuel (from_text [104, 105]) = ExpandResult.ok [104, 105]) ∧
    to_text 1 (from_text [8364]) = ExpandResult.keyError 8364 :=
  ⟨(from_text_unvalidated_roundtrip_split.1 [104, 105] (by decide)).2,
    from_text_unvalidated_roundtrip_split.2 0⟩
